import Mathlib

/-!
# DiamondJS Reactive Dependency Tracking & Scheduling Engine — verification

Shallow embedding of the reactivity engine (`packages/runtime/src/reactivity.ts`,
v1.5.1 revision with the `proxyCache`) and the scheduler
(`packages/runtime/src/scheduler.ts`), with theorems settling the spec claims.

State is passed explicitly; the JS `WeakMap`/`Map`/`Set` structures are modelled
as association lists keyed by object id / `(object id, property)` pairs, with
`Set` insertion-order semantics modelled as duplicate-free lists extended at the
tail.  Ghost trace fields (`schedTrace`, `invokeTrace`, `errLog`) record the
observable events (queueing requests, effect invocations by the flush loop,
errors reported through `console.error`) and are touched only at the points
where the source produces those events; every operational field mirrors the
source code.
-/

set_option autoImplicit false
set_option maxRecDepth 4000

namespace Diamond

/-- JS runtime values as far as the engine inspects them: `undefined`,
primitives (numbers/strings), and references to plain objects (by object id).
`Value.obj` is the only case with `typeof value === 'object'` (`null` is not
modelled; the engine never stores it, and the `value !== null` guard in the
get trap only matters for `null`). -/
inductive Value where
  | undef
  | num (n : Int)
  | str (s : String)
  | obj (o : Nat)
deriving DecidableEq, Repr

/-- Property key of an object: `(target object id, property name)`. -/
abbrev Key := Nat × String

/-- Association-list lookup (models `Map.get` / `WeakMap.get`). -/
def alook {α β : Type} [DecidableEq α] : List (α × β) → α → Option β
  | [], _ => none
  | (a, b) :: rest, x => if a = x then some b else alook rest x

/-- Association-list insert/overwrite (models `Map.set` / `WeakMap.set`). -/
def ains {α β : Type} [DecidableEq α] : List (α × β) → α → β → List (α × β)
  | [], x, y => [(x, y)]
  | (a, b) :: rest, x, y => if a = x then (x, y) :: rest else (a, b) :: ains rest x y

/-- Association-list delete (models `Map.delete` / `WeakMap.delete`). -/
def aerase {α β : Type} [DecidableEq α] : List (α × β) → α → List (α × β)
  | [], _ => []
  | (a, b) :: rest, x => if a = x then rest else (a, b) :: aerase rest x

/-- `Set.add` on an insertion-ordered duplicate-free list. -/
def sadd {α : Type} [DecidableEq α] (l : List α) (x : α) : List α :=
  if x ∈ l then l else l ++ [x]

/-- One step an effect body can perform: a tracked property read through the
proxy, a property write through the proxy, a call of a computed accessor, or a
thrown exception. -/
inductive EAct where
  | readP (t : Nat) (p : String)
  | writeP (t : Nat) (p : String) (v : Value)
  | accessC (c : Nat)
  | throwE
deriving DecidableEq, Repr

/-- The runnable closures the scheduler can hold: an ordinary effect body
(`createEffect`'s `effectFn` over a user body), the dependency-tracking
invalidation effect of a computed (`() => { dirty = true; getter() }` wrapped
by `createEffect`), or the recompute closure `effect` from `createComputed`. -/
inductive EffBody where
  | eacts (l : List EAct)
  | tracker (c : Nat)
  | recompute (c : Nat)
deriving DecidableEq, Repr

/-- State of one computed cell from `createComputed`: the getter is modelled
as a list of tracked property reads followed by producing `getterVal`.
`runs` is a ghost counter of getter invocations. -/
structure CompCell where
  getterReads : List Key
  getterVal : Value
  recomputeId : Nat
  dirty : Bool
  cached : Option Value
  runs : Nat
deriving DecidableEq, Repr

/-- Combined state of `ReactivityEngine` and `Scheduler` (both singletons in
the source).  `heap` is the store of the plain target objects; `deps` is
`dependencies` flattened to `(object, prop) → Set<EffectFn>`; `effectDeps` is
the reverse index keyed by the dep-set's `(object, prop)` key; `proxyCache`
maps an object id to its proxy id; `effects`/`comps` are registries resolving
an effect id / computed id to its closure, standing for the closures the JS
runtime holds by reference. -/
structure Engine where
  heap : List (Key × Value)
  deps : List (Key × List Nat)
  effectDeps : List (Nat × List Key)
  activeEffect : Option Nat
  proxyCache : List (Nat × Nat)
  nextProxyId : Nat
  effects : List (Nat × EffBody)
  comps : List (Nat × CompCell)
  queue : List Nat
  flushing : Bool
  schedTrace : List Nat
  invokeTrace : List Nat
  errLog : List Nat
deriving Repr

/-- Engine with no objects, no dependents and an idle scheduler. -/
def initEngine : Engine :=
  { heap := [], deps := [], effectDeps := [], activeEffect := none,
    proxyCache := [], nextProxyId := 0, effects := [], comps := [],
    queue := [], flushing := false, schedTrace := [], invokeTrace := [],
    errLog := [] }

/-- The dep set registered on a key (empty when no set exists yet). -/
def depsOf (st : Engine) (k : Key) : List Nat :=
  (alook st.deps k).getD []

/-- `ReactivityEngine.trackDependency`: when an effect is active, add it to
the dep set of `(target, prop)` and record that set's key in the effect's
reverse index (`effectDeps`). -/
def trackDependency (st : Engine) (t : Nat) (p : String) : Engine :=
  match st.activeEffect with
  | none => st
  | some e =>
    let dep := (alook st.deps (t, p)).getD []
    let keys := (alook st.effectDeps e).getD []
    { st with
      deps := ains st.deps (t, p) (sadd dep e),
      effectDeps := ains st.effectDeps e (sadd keys (t, p)) }

/-- `Scheduler.queueEffect`: add to the pending set (deduplicated, insertion
order) and mark a flush as scheduled.  The ghost `schedTrace` records every
queueing request, duplicates included. -/
def queueEffect (st : Engine) (e : Nat) : Engine :=
  { st with
    queue := sadd st.queue e,
    flushing := true,
    schedTrace := st.schedTrace ++ [e] }

/-- `ReactivityEngine.triggerEffects`: hand every dependent registered on
`(target, prop)` to the scheduler. -/
def triggerEffects (st : Engine) (t : Nat) (p : String) : Engine :=
  match alook st.deps (t, p) with
  | none => st
  | some dep => dep.foldl queueEffect st

/-- The `set` trap of `createProxy`: read the old value, perform the write,
and trigger dependents only when the old value is not strictly equal to the
new one. -/
def proxySet (st : Engine) (t : Nat) (p : String) (v : Value) : Engine :=
  let oldValue := (alook st.heap (t, p)).getD Value.undef
  let st1 := { st with heap := ains st.heap (t, p) v }
  if oldValue ≠ v then triggerEffects st1 t p else st1

/-- `ReactivityEngine.createProxy` (v1.5.1): return the cached proxy when one
exists, otherwise create a fresh proxy, cache it, and return it. -/
def createProxy (st : Engine) (o : Nat) : Engine × Nat :=
  match alook st.proxyCache o with
  | some p => (st, p)
  | none =>
    let p := st.nextProxyId
    ({ st with
        proxyCache := ains st.proxyCache o p,
        nextProxyId := p + 1 }, p)

/-- What a proxied read hands back to JS code: a non-object value as-is, or
the proxy wrapping a nested object. -/
inductive JsVal where
  | base (v : Value)
  | proxyOf (pid : Nat)
deriving DecidableEq, Repr

/-- The `get` trap of `createProxy`: track the dependency, read the value,
and lazily wrap a nested object in a (cached) proxy. -/
def proxyGet (st : Engine) (t : Nat) (p : String) : Engine × JsVal :=
  let st1 := trackDependency st t p
  let value := (alook st1.heap (t, p)).getD Value.undef
  match value with
  | Value.obj o =>
    let (st2, pid) := createProxy st1 o
    (st2, JsVal.proxyOf pid)
  | v => (st1, JsVal.base v)

/-- Run the reads of a computed getter (each through the proxy get trap). -/
def runReads (st : Engine) (rs : List Key) : Engine :=
  rs.foldl (fun s k => (proxyGet s k.1 k.2).1) st

/-- Update one computed cell in place (no-op when the cell is unknown). -/
def updCell (st : Engine) (c : Nat) (f : CompCell → CompCell) : Engine :=
  match alook st.comps c with
  | none => st
  | some cell => { st with comps := ains st.comps c (f cell) }

/-- Ghost: count one getter invocation of computed `c`. -/
def bumpRuns (st : Engine) (c : Nat) : Engine :=
  updCell st c (fun cell => { cell with runs := cell.runs + 1 })

/-- The body of the computed's invalidation effect,
`() => { dirty = true; getter() }` (run under `createEffect`'s wrapper). -/
def trackerBody (st : Engine) (c : Nat) : Engine :=
  match alook st.comps c with
  | none => st
  | some cell =>
    let st1 := updCell st c (fun cl => { cl with dirty := true })
    let st2 := bumpRuns st1 c
    runReads st2 cell.getterReads

/-- The recompute closure `effect` from `createComputed`: when dirty, run the
getter under tracking (registering the closure itself as the active
dependent), cache the result, restore `activeEffect` to `null`, and clear the
dirty flag. -/
def compRecomputeRun (st : Engine) (c : Nat) : Engine :=
  match alook st.comps c with
  | none => st
  | some cell =>
    if cell.dirty then
      let st1 := { st with activeEffect := some cell.recomputeId }
      let st2 := bumpRuns st1 c
      let st3 := runReads st2 cell.getterReads
      let st4 := { st3 with activeEffect := none }
      updCell st4 c (fun cl =>
        { cl with cached := some cl.getterVal, dirty := false })
    else st

/-- The accessor returned by `createComputed`:
`() => { if (dirty) effect(); return cached }`. -/
def compAccess (st : Engine) (c : Nat) : Engine × Option Value :=
  match alook st.comps c with
  | none => (st, none)
  | some cell =>
    let st' := if cell.dirty then compRecomputeRun st c else st
    (st', (alook st'.comps c).bind CompCell.cached)

/-- One step of a user effect body. -/
def runEAct (st : Engine) (a : EAct) : Engine × Bool :=
  match a with
  | EAct.readP t p => ((proxyGet st t p).1, true)
  | EAct.writeP t p v => (proxySet st t p v, true)
  | EAct.accessC c => ((compAccess st c).1, true)
  | EAct.throwE => (st, false)

/-- Run a user effect body, stopping at a thrown exception. -/
def runEActs (st : Engine) : List EAct → Engine × Bool
  | [] => (st, true)
  | a :: rest =>
    let (st1, ok) := runEAct st a
    if ok then runEActs st1 rest else (st1, false)

/-- Invoke a registered runnable, exactly the way the scheduler or
`createEffect` calls it: `createEffect`'s `effectFn` sets `activeEffect` to
itself, runs the body, and restores `activeEffect` to `null` in `finally`
(also when the body throws); the computed recompute closure manages
`activeEffect` itself.  The `Bool` is `false` when the run threw. -/
def effectFnRun (st : Engine) (e : Nat) : Engine × Bool :=
  match alook st.effects e with
  | none => (st, true)
  | some (EffBody.eacts l) =>
    let st1 := { st with activeEffect := some e }
    let (st2, ok) := runEActs st1 l
    ({ st2 with activeEffect := none }, ok)
  | some (EffBody.tracker c) =>
    let st1 := { st with activeEffect := some e }
    let st2 := trackerBody st1 c
    ({ st2 with activeEffect := none }, true)
  | some (EffBody.recompute c) =>
    (compRecomputeRun st c, true)

/-- One iteration of the flush loop: record the invocation (ghost), call the
effect, and on a thrown error report it once through `console.error`
(ghost `errLog`). -/
def flushStep (st : Engine) (e : Nat) : Engine :=
  let st1 := { st with invokeTrace := st.invokeTrace ++ [e] }
  let (st2, ok) := effectFnRun st1 e
  if ok then st2 else { st2 with errLog := st2.errLog ++ [e] }

/-- `Scheduler.flush`: snapshot the pending set, clear it and the
flush-scheduled flag before running anything, then invoke each snapshotted
entry inside a per-entry error boundary. -/
def flushEngine (st : Engine) : Engine :=
  let effects := st.queue
  let st1 := { st with queue := [], flushing := false }
  effects.foldl flushStep st1

/-- `ReactivityEngine.createEffect`: register the effect body and run it once
immediately to collect dependencies. -/
def createEffect (st : Engine) (e : Nat) (l : List EAct) : Engine :=
  let st1 := { st with effects := ains st.effects e (EffBody.eacts l) }
  (effectFnRun st1 e).1

/-- `ReactivityEngine.createComputed`: allocate the cell (dirty, no cached
value), register the recompute closure and the invalidation effect, and run
the invalidation effect once immediately (via `createEffect`). -/
def createComputed (st : Engine) (c : Nat) (trackerId recomputeId : Nat)
    (reads : List Key) (v : Value) : Engine :=
  let cell : CompCell :=
    { getterReads := reads, getterVal := v, recomputeId := recomputeId,
      dirty := true, cached := none, runs := 0 }
  let st1 := { st with
    comps := ains st.comps c cell,
    effects := ains st.effects recomputeId (EffBody.recompute c) }
  let st2 := { st1 with
    effects := ains st1.effects trackerId (EffBody.tracker c) }
  (effectFnRun st2 trackerId).1

/-- `ReactivityEngine.cleanupEffect` (the disposer returned by
`createEffect`): remove the effect from every dep set in its reverse index
and drop the reverse index entry.  The scheduler queue is not touched. -/
def cleanupEffect (st : Engine) (e : Nat) : Engine :=
  match alook st.effectDeps e with
  | none => st
  | some keys =>
    let newDeps := keys.foldl
      (fun d k => ains d k (((alook d k).getD []).filter (· ≠ e))) st.deps
    { st with deps := newDeps, effectDeps := aerase st.effectDeps e }

/-! ## Association list and set lemmas -/

theorem alook_ains_self {α β : Type} [DecidableEq α] (l : List (α × β)) (a : α) (b : β) :
    alook (ains l a b) a = some b := by
  induction l with
  | nil => simp [ains, alook]
  | cons hd tl ih =>
    obtain ⟨x, y⟩ := hd
    by_cases h : x = a <;> simp [ains, alook, h, ih]

theorem alook_ains_ne {α β : Type} [DecidableEq α] (l : List (α × β)) (a x : α) (b : β)
    (h : a ≠ x) : alook (ains l a b) x = alook l x := by
  induction l with
  | nil => simp [ains, alook, h]
  | cons hd tl ih =>
    obtain ⟨u, v⟩ := hd
    by_cases hu : u = a
    · subst hu; simp [ains, alook, h]
    · simp [ains, alook, hu, ih]

theorem mem_sadd_of_mem {α : Type} [DecidableEq α] {l : List α} {x : α} (y : α)
    (h : x ∈ l) : x ∈ sadd l y := by
  unfold sadd
  by_cases hy : y ∈ l <;> simp [hy, h]

theorem self_mem_sadd {α : Type} [DecidableEq α] (l : List α) (y : α) : y ∈ sadd l y := by
  unfold sadd
  by_cases hy : y ∈ l <;> simp [hy]

theorem nodup_sadd {α : Type} [DecidableEq α] {l : List α} (y : α) (h : l.Nodup) :
    (sadd l y).Nodup := by
  unfold sadd
  by_cases hy : y ∈ l
  · simp [hy, h]
  · simp only [hy, if_false]
    refine List.Nodup.append h (List.nodup_singleton y) ?_
    intro a ha hmem
    simp only [List.mem_singleton] at hmem
    exact hy (hmem ▸ ha)

/-! ## First-occurrence deduplication (the spec's "first-scheduled order") -/

/-- The queue contents produced by a sequence of `queueEffect` requests. -/
def qfold (q : List Nat) (raw : List Nat) : List Nat :=
  raw.foldl sadd q

/-- Spec-side characterization: keep the first occurrence of each element in
order of first occurrence, skipping anything already `seen`. -/
def fsAux (seen : List Nat) : List Nat → List Nat
  | [] => []
  | e :: rest => if e ∈ seen then fsAux seen rest else e :: fsAux (seen ++ [e]) rest

/-- Spec-side characterization of "one entry per distinct Dependent, in
first-scheduled order": the first occurrences of the raw request sequence. -/
def firstSched (raw : List Nat) : List Nat :=
  fsAux [] raw

theorem qfold_eq_fsAux (raw : List Nat) : ∀ q : List Nat,
    qfold q raw = q ++ fsAux q raw := by
  induction raw with
  | nil => intro q; simp [qfold, fsAux]
  | cons e rest ih =>
    intro q
    show qfold (sadd q e) rest = _
    by_cases he : e ∈ q
    · rw [show sadd q e = q by simp [sadd, he], ih q]
      simp [fsAux, he]
    · rw [show sadd q e = q ++ [e] by simp [sadd, he], ih (q ++ [e])]
      simp [fsAux, he]

theorem qfold_nil_eq_firstSched (raw : List Nat) : qfold [] raw = firstSched raw := by
  simpa [firstSched] using qfold_eq_fsAux raw []

theorem mem_seen_not_mem_fsAux (l : List Nat) : ∀ seen x, x ∈ seen → x ∉ fsAux seen l := by
  induction l with
  | nil => intro seen x _; simp [fsAux]
  | cons e rest ih =>
    intro seen x hx
    by_cases he : e ∈ seen
    · simpa [fsAux, he] using ih seen x hx
    · have hne : x ≠ e := fun h => he (h ▸ hx)
      have : x ∈ seen ++ [e] := by simp [hx]
      simpa [fsAux, he, hne] using ih (seen ++ [e]) x this

theorem nodup_fsAux (l : List Nat) : ∀ seen, (fsAux seen l).Nodup := by
  induction l with
  | nil => intro seen; simp [fsAux]
  | cons e rest ih =>
    intro seen
    by_cases he : e ∈ seen
    · simpa [fsAux, he] using ih seen
    · have hnotin : e ∉ fsAux (seen ++ [e]) rest :=
        mem_seen_not_mem_fsAux rest (seen ++ [e]) e (by simp)
      simpa [fsAux, he] using ⟨hnotin, ih (seen ++ [e])⟩

theorem nodup_firstSched (raw : List Nat) : (firstSched raw).Nodup :=
  nodup_fsAux raw []

theorem sublist_fsAux (l : List Nat) : ∀ seen, (fsAux seen l).Sublist l := by
  induction l with
  | nil => intro seen; simp [fsAux]
  | cons e rest ih =>
    intro seen
    by_cases he : e ∈ seen
    · simpa [fsAux, he] using List.Sublist.cons e (ih seen)
    · simpa [fsAux, he] using List.Sublist.cons₂ e (ih (seen ++ [e]))

theorem firstSched_sublist (raw : List Nat) : (firstSched raw).Sublist raw :=
  sublist_fsAux raw []

/-! ## Projection lemmas for the engine primitives -/

theorem trackDependency_heap (st : Engine) (t : Nat) (p : String) :
    (trackDependency st t p).heap = st.heap := by
  unfold trackDependency
  cases st.activeEffect <;> rfl

theorem trackDependency_proxyCache (st : Engine) (t : Nat) (p : String) :
    (trackDependency st t p).proxyCache = st.proxyCache := by
  unfold trackDependency
  cases st.activeEffect <;> rfl

theorem trackDependency_comps (st : Engine) (t : Nat) (p : String) :
    (trackDependency st t p).comps = st.comps := by
  unfold trackDependency
  cases st.activeEffect <;> rfl

theorem createProxy_heap (st : Engine) (o : Nat) :
    (createProxy st o).1.heap = st.heap := by
  unfold createProxy
  cases alook st.proxyCache o <;> rfl

theorem createProxy_deps (st : Engine) (o : Nat) :
    (createProxy st o).1.deps = st.deps := by
  unfold createProxy
  cases alook st.proxyCache o <;> rfl

theorem createProxy_effectDeps (st : Engine) (o : Nat) :
    (createProxy st o).1.effectDeps = st.effectDeps := by
  unfold createProxy
  cases alook st.proxyCache o <;> rfl

theorem createProxy_comps (st : Engine) (o : Nat) :
    (createProxy st o).1.comps = st.comps := by
  unfold createProxy
  cases alook st.proxyCache o <;> rfl

/-- After `createProxy`, the cache holds exactly the returned proxy. -/
theorem createProxy_cached (st : Engine) (o : Nat) :
    alook (createProxy st o).1.proxyCache o = some (createProxy st o).2 := by
  unfold createProxy
  cases h : alook st.proxyCache o with
  | none => simpa using alook_ains_self st.proxyCache o st.nextProxyId
  | some p => simpa using h

/-- `createProxy` on a state whose cache already holds `o` returns the cached
proxy and leaves the state unchanged. -/
theorem createProxy_of_cached {st : Engine} {o pid : Nat}
    (h : alook st.proxyCache o = some pid) : createProxy st o = (st, pid) := by
  unfold createProxy
  rw [h]

/-- Wrap idempotence: the second `createProxy` call returns the same proxy and
does not change the state. -/
theorem createProxy_idem (st : Engine) (o : Nat) :
    createProxy (createProxy st o).1 o = ((createProxy st o).1, (createProxy st o).2) :=
  createProxy_of_cached (createProxy_cached st o)

theorem proxyGet_heap (st : Engine) (t : Nat) (p : String) :
    (proxyGet st t p).1.heap = st.heap := by
  have hh := trackDependency_heap st t p
  simp only [proxyGet]
  rw [hh]
  cases h : (alook st.heap (t, p)).getD Value.undef <;>
    simp [h, createProxy_heap, hh]

theorem proxyGet_comps (st : Engine) (t : Nat) (p : String) :
    (proxyGet st t p).1.comps = st.comps := by
  have hh := trackDependency_heap st t p
  simp only [proxyGet]
  rw [hh]
  cases h : (alook st.heap (t, p)).getD Value.undef <;>
    simp [h, createProxy_comps, trackDependency_comps]

/-! ## State evolution under body-level operations

`Evolves st st'` records what any code reachable from an effect body can do to
the observable engine state: it never touches the invocation trace, the error
log or the effect registry, every queue mutation goes through `queueEffect`
(so the queue is the `sadd`-fold of the scheduling requests it appended to
`schedTrace`), and dep sets only grow. -/

def Evolves (st st' : Engine) : Prop :=
  st'.invokeTrace = st.invokeTrace ∧
  st'.errLog = st.errLog ∧
  st'.effects = st.effects ∧
  (∃ tr, st'.schedTrace = st.schedTrace ++ tr ∧ st'.queue = qfold st.queue tr) ∧
  (∀ k e, e ∈ depsOf st k → e ∈ depsOf st' k)

theorem evolves_rfl (st : Engine) : Evolves st st :=
  ⟨rfl, rfl, rfl, ⟨[], by simp, rfl⟩, fun _ _ h => h⟩

theorem evolves_trans {a b c : Engine} (h1 : Evolves a b) (h2 : Evolves b c) :
    Evolves a c := by
  obtain ⟨i1, e1, f1, ⟨t1, s1, q1⟩, d1⟩ := h1
  obtain ⟨i2, e2, f2, ⟨t2, s2, q2⟩, d2⟩ := h2
  refine ⟨i2.trans i1, e2.trans e1, f2.trans f1, ⟨t1 ++ t2, ?_, ?_⟩,
    fun k e he => d2 k e (d1 k e he)⟩
  · rw [s2, s1, List.append_assoc]
  · rw [q2, q1]; simp [qfold, List.foldl_append]

theorem evolves_of_parts {st st' : Engine}
    (hi : st'.invokeTrace = st.invokeTrace)
    (he : st'.errLog = st.errLog)
    (hf : st'.effects = st.effects)
    (hs : st'.schedTrace = st.schedTrace)
    (hq : st'.queue = st.queue)
    (hd : ∀ k e, e ∈ depsOf st k → e ∈ depsOf st' k) : Evolves st st' :=
  ⟨hi, he, hf, ⟨[], by simp [hs], by simpa [qfold] using hq⟩, hd⟩

theorem evolves_of_eqs {st st' : Engine}
    (hi : st'.invokeTrace = st.invokeTrace)
    (he : st'.errLog = st.errLog)
    (hf : st'.effects = st.effects)
    (hs : st'.schedTrace = st.schedTrace)
    (hq : st'.queue = st.queue)
    (hd : st'.deps = st.deps) : Evolves st st' :=
  evolves_of_parts hi he hf hs hq (fun k e h => by simpa [depsOf, hd] using h)

/-- A tracked read only adds to the dep set of the read key. -/
theorem depsOf_trackDependency (st : Engine) (t : Nat) (p : String) (k : Key) (e' : Nat)
    (h : e' ∈ depsOf st k) : e' ∈ depsOf (trackDependency st t p) k := by
  cases hae : st.activeEffect with
  | none => simpa [trackDependency, hae] using h
  | some e =>
    simp only [trackDependency, hae, depsOf]
    by_cases hk : (t, p) = k
    · subst hk
      rw [alook_ains_self]
      exact mem_sadd_of_mem e (by simpa [depsOf] using h)
    · rw [alook_ains_ne _ _ _ _ hk]
      exact h

theorem evolves_trackDependency (st : Engine) (t : Nat) (p : String) :
    Evolves st (trackDependency st t p) := by
  have hfields : (trackDependency st t p).invokeTrace = st.invokeTrace ∧
      (trackDependency st t p).errLog = st.errLog ∧
      (trackDependency st t p).effects = st.effects ∧
      (trackDependency st t p).schedTrace = st.schedTrace ∧
      (trackDependency st t p).queue = st.queue := by
    unfold trackDependency
    cases st.activeEffect <;> exact ⟨rfl, rfl, rfl, rfl, rfl⟩
  exact evolves_of_parts hfields.1 hfields.2.1 hfields.2.2.1 hfields.2.2.2.1
    hfields.2.2.2.2 (depsOf_trackDependency st t p)

theorem evolves_queueEffect (st : Engine) (e : Nat) : Evolves st (queueEffect st e) :=
  ⟨rfl, rfl, rfl, ⟨[e], rfl, rfl⟩, fun _ _ h => h⟩

theorem evolves_foldl_queueEffect (l : List Nat) : ∀ st : Engine,
    Evolves st (l.foldl queueEffect st) := by
  induction l with
  | nil => intro st; exact evolves_rfl st
  | cons a rest ih =>
    intro st
    exact evolves_trans (evolves_queueEffect st a) (ih (queueEffect st a))

theorem evolves_triggerEffects (st : Engine) (t : Nat) (p : String) :
    Evolves st (triggerEffects st t p) := by
  unfold triggerEffects
  cases alook st.deps (t, p) with
  | none => exact evolves_rfl st
  | some dep => exact evolves_foldl_queueEffect dep st

theorem evolves_proxySet (st : Engine) (t : Nat) (p : String) (v : Value) :
    Evolves st (proxySet st t p v) := by
  unfold proxySet
  have h1 : Evolves st { st with heap := ains st.heap (t, p) v } :=
    evolves_of_eqs rfl rfl rfl rfl rfl rfl
  by_cases h : (alook st.heap (t, p)).getD Value.undef ≠ v
  · simp only [if_pos h]
    exact evolves_trans h1 (evolves_triggerEffects _ t p)
  · simp only [if_neg h]
    exact h1

theorem evolves_createProxy (st : Engine) (o : Nat) : Evolves st (createProxy st o).1 := by
  have hfields : (createProxy st o).1.invokeTrace = st.invokeTrace ∧
      (createProxy st o).1.errLog = st.errLog ∧
      (createProxy st o).1.effects = st.effects ∧
      (createProxy st o).1.schedTrace = st.schedTrace ∧
      (createProxy st o).1.queue = st.queue ∧
      (createProxy st o).1.deps = st.deps := by
    unfold createProxy
    cases alook st.proxyCache o <;> exact ⟨rfl, rfl, rfl, rfl, rfl, rfl⟩
  exact evolves_of_eqs hfields.1 hfields.2.1 hfields.2.2.1 hfields.2.2.2.1
    hfields.2.2.2.2.1 hfields.2.2.2.2.2

theorem evolves_proxyGet (st : Engine) (t : Nat) (p : String) :
    Evolves st (proxyGet st t p).1 := by
  simp only [proxyGet]
  cases h : (alook (trackDependency st t p).heap (t, p)).getD Value.undef with
  | obj o =>
    have hc := evolves_createProxy (trackDependency st t p) o
    rcases hcp : createProxy (trackDependency st t p) o with ⟨st2, pid⟩
    rw [hcp] at hc
    simp only [h, hcp]
    exact evolves_trans (evolves_trackDependency st t p) hc
  | undef => simp only [h]; exact evolves_trackDependency st t p
  | num n => simp only [h]; exact evolves_trackDependency st t p
  | str s => simp only [h]; exact evolves_trackDependency st t p

theorem evolves_runReads (rs : List Key) : ∀ st : Engine,
    Evolves st (runReads st rs) := by
  induction rs with
  | nil => intro st; exact evolves_rfl st
  | cons k rest ih =>
    intro st
    exact evolves_trans (evolves_proxyGet st k.1 k.2) (ih ((proxyGet st k.1 k.2).1))

theorem evolves_updCell (st : Engine) (c : Nat) (f : CompCell → CompCell) :
    Evolves st (updCell st c f) := by
  have hfields : (updCell st c f).invokeTrace = st.invokeTrace ∧
      (updCell st c f).errLog = st.errLog ∧
      (updCell st c f).effects = st.effects ∧
      (updCell st c f).schedTrace = st.schedTrace ∧
      (updCell st c f).queue = st.queue ∧
      (updCell st c f).deps = st.deps := by
    unfold updCell
    cases alook st.comps c <;> exact ⟨rfl, rfl, rfl, rfl, rfl, rfl⟩
  exact evolves_of_eqs hfields.1 hfields.2.1 hfields.2.2.1 hfields.2.2.2.1
    hfields.2.2.2.2.1 hfields.2.2.2.2.2

theorem evolves_bumpRuns (st : Engine) (c : Nat) : Evolves st (bumpRuns st c) :=
  evolves_updCell st c _

theorem evolves_trackerBody (st : Engine) (c : Nat) : Evolves st (trackerBody st c) := by
  unfold trackerBody
  cases alook st.comps c with
  | none => exact evolves_rfl st
  | some cell =>
    exact evolves_trans (evolves_updCell st c _)
      (evolves_trans (evolves_bumpRuns _ c) (evolves_runReads cell.getterReads _))

theorem evolves_compRecomputeRun (st : Engine) (c : Nat) :
    Evolves st (compRecomputeRun st c) := by
  unfold compRecomputeRun
  cases alook st.comps c with
  | none => exact evolves_rfl st
  | some cell =>
    by_cases hd : cell.dirty
    · simp only [hd, if_true]
      refine evolves_trans (evolves_of_eqs rfl rfl rfl rfl rfl rfl :
        Evolves st { st with activeEffect := some cell.recomputeId }) ?_
      refine evolves_trans (evolves_bumpRuns _ c) ?_
      refine evolves_trans (evolves_runReads cell.getterReads _) ?_
      refine evolves_trans (evolves_of_eqs rfl rfl rfl rfl rfl rfl :
        Evolves _ { (runReads (bumpRuns { st with activeEffect := some cell.recomputeId } c) cell.getterReads) with activeEffect := none }) ?_
      exact evolves_updCell _ c _
    · simp only [hd, if_false]
      exact evolves_rfl st

theorem evolves_compAccess (st : Engine) (c : Nat) : Evolves st (compAccess st c).1 := by
  unfold compAccess
  cases alook st.comps c with
  | none => exact evolves_rfl st
  | some cell =>
    by_cases hd : cell.dirty
    · simp only [hd, if_true]
      exact evolves_compRecomputeRun st c
    · simp only [hd, if_false]
      exact evolves_rfl st

theorem evolves_runEAct (st : Engine) (a : EAct) : Evolves st (runEAct st a).1 := by
  cases a with
  | readP t p => exact evolves_proxyGet st t p
  | writeP t p v => exact evolves_proxySet st t p v
  | accessC c => exact evolves_compAccess st c
  | throwE => exact evolves_rfl st

theorem evolves_runEActs (l : List EAct) : ∀ st : Engine,
    Evolves st (runEActs st l).1 := by
  induction l with
  | nil => intro st; exact evolves_rfl st
  | cons a rest ih =>
    intro st
    have ha := evolves_runEAct st a
    rcases hra : runEAct st a with ⟨st1, ok⟩
    rw [hra] at ha
    cases ok with
    | true => simpa [runEActs, hra] using evolves_trans ha (ih st1)
    | false => simpa [runEActs, hra] using ha

theorem evolves_effectFnRun (st : Engine) (e : Nat) : Evolves st (effectFnRun st e).1 := by
  unfold effectFnRun
  cases alook st.effects e with
  | none => exact evolves_rfl st
  | some body =>
    cases body with
    | eacts l =>
      have h1 : Evolves st { st with activeEffect := some e } :=
        evolves_of_eqs rfl rfl rfl rfl rfl rfl
      have h2 := evolves_runEActs l { st with activeEffect := some e }
      rcases hre : runEActs { st with activeEffect := some e } l with ⟨st2, ok⟩
      rw [hre] at h2
      simp only [hre]
      exact evolves_trans h1 (evolves_trans h2 (evolves_of_eqs rfl rfl rfl rfl rfl rfl))
    | tracker c =>
      have h1 : Evolves st { st with activeEffect := some e } :=
        evolves_of_eqs rfl rfl rfl rfl rfl rfl
      have h2 := evolves_trackerBody { st with activeEffect := some e } c
      exact evolves_trans h1 (evolves_trans h2 (evolves_of_eqs rfl rfl rfl rfl rfl rfl))
    | recompute c => exact evolves_compRecomputeRun st c

/-! ## Flush-loop analysis -/

/-- Whether invoking effect `e` throws: a registered user body throws exactly
when it contains a `throw` step (the other runnables never throw). -/
def throwsIn (st : Engine) (e : Nat) : Bool :=
  match alook st.effects e with
  | some (EffBody.eacts l) => decide (EAct.throwE ∈ l)
  | _ => false

theorem runEActs_ok (l : List EAct) : ∀ st : Engine,
    (runEActs st l).2 = !decide (EAct.throwE ∈ l) := by
  induction l with
  | nil => intro st; simp [runEActs]
  | cons a rest ih =>
    intro st
    cases a with
    | throwE => simp [runEActs, runEAct]
    | readP t p => simp [runEActs, runEAct, ih]
    | writeP t p v => simp [runEActs, runEAct, ih]
    | accessC c => simp [runEActs, runEAct, ih]

theorem effectFnRun_ok (st : Engine) (e : Nat) :
    (effectFnRun st e).2 = !(throwsIn st e) := by
  unfold effectFnRun throwsIn
  cases h : alook st.effects e with
  | none => simp
  | some body =>
    cases body with
    | eacts l =>
      have hok := runEActs_ok l { st with activeEffect := some e }
      rcases hre : runEActs { st with activeEffect := some e } l with ⟨st2, ok⟩
      rw [hre] at hok
      simp [hre, hok]
    | tracker c => simp
    | recompute c => simp

theorem flushStep_spec (s : Engine) (e : Nat) :
    (flushStep s e).invokeTrace = s.invokeTrace ++ [e]
    ∧ (flushStep s e).errLog = s.errLog ++ (if throwsIn s e then [e] else [])
    ∧ (flushStep s e).effects = s.effects
    ∧ (∃ tr, (flushStep s e).schedTrace = s.schedTrace ++ tr
        ∧ (flushStep s e).queue = qfold s.queue tr)
    ∧ (∀ k e', e' ∈ depsOf s k → e' ∈ depsOf (flushStep s e) k) := by
  unfold flushStep
  have hev := evolves_effectFnRun { s with invokeTrace := s.invokeTrace ++ [e] } e
  have hok := effectFnRun_ok { s with invokeTrace := s.invokeTrace ++ [e] } e
  rcases hfr : effectFnRun { s with invokeTrace := s.invokeTrace ++ [e] } e with ⟨s2, ok⟩
  rw [hfr] at hev hok
  obtain ⟨hi, herr, hf, ⟨tr, hst, hq⟩, hd⟩ := hev
  have hth : throwsIn { s with invokeTrace := s.invokeTrace ++ [e] } e = throwsIn s e := rfl
  rw [hth] at hok
  cases ok with
  | true =>
    have hthf : throwsIn s e = false := by
      cases hcc : throwsIn s e
      · rfl
      · rw [hcc] at hok; simp at hok
    simp only [hfr, if_true]
    exact ⟨hi, by rw [herr, hthf]; simp, hf, ⟨tr, hst, hq⟩, hd⟩
  | false =>
    have htht : throwsIn s e = true := by
      cases hcc : throwsIn s e
      · rw [hcc] at hok; simp at hok
      · rfl
    simp only [hfr, if_false]
    have herr' : s2.errLog = s.errLog := by simpa using herr
    exact ⟨hi, by simp [herr', htht], hf, ⟨tr, hst, hq⟩, hd⟩

theorem flushLoop (l : List Nat) : ∀ s : Engine,
    ((l.foldl flushStep s).invokeTrace = s.invokeTrace ++ l)
    ∧ ((l.foldl flushStep s).errLog = s.errLog ++ l.filter (fun e => throwsIn s e))
    ∧ ((l.foldl flushStep s).effects = s.effects)
    ∧ (∃ tr, (l.foldl flushStep s).schedTrace = s.schedTrace ++ tr
        ∧ (l.foldl flushStep s).queue = qfold s.queue tr)
    ∧ (∀ k e, e ∈ depsOf s k → e ∈ depsOf (l.foldl flushStep s) k) := by
  induction l with
  | nil => intro s; exact ⟨by simp, by simp, rfl, ⟨[], by simp, rfl⟩, fun _ _ h => h⟩
  | cons e rest ih =>
    intro s
    obtain ⟨hi1, he1, hf1, ⟨t1, hs1, hq1⟩, hd1⟩ := flushStep_spec s e
    obtain ⟨hi2, he2, hf2, ⟨t2, hs2, hq2⟩, hd2⟩ := ih (flushStep s e)
    have hpred : (fun x => throwsIn (flushStep s e) x) = fun x => throwsIn s x := by
      funext x; simp [throwsIn, hf1]
    refine ⟨?_, ?_, hf2.trans hf1, ⟨t1 ++ t2, ?_, ?_⟩,
      fun k e' h => hd2 k e' (hd1 k e' h)⟩
    · simp only [List.foldl_cons]; rw [hi2, hi1]; simp
    · simp only [List.foldl_cons]; rw [he2, hpred, he1]
      cases ht : throwsIn s e
      · simp [List.filter_cons, ht]
      · simp [List.filter_cons, ht]
    · simp only [List.foldl_cons]; rw [hs2, hs1, List.append_assoc]
    · simp only [List.foldl_cons]; rw [hq2, hq1]; simp [qfold, List.foldl_append]

/-- Everything `Scheduler.flush` guarantees: the invocation trace grows by
exactly the pre-flush queue (the snapshot), errors grow by one entry per
throwing queued body, the registry is untouched, the post-flush queue holds
exactly the first occurrences of the scheduling requests made while draining
(which therefore land in the next batch), and dep sets only grow. -/
theorem flushEngine_spec (st : Engine) :
    ((flushEngine st).invokeTrace = st.invokeTrace ++ st.queue)
    ∧ ((flushEngine st).errLog = st.errLog ++ st.queue.filter (fun e => throwsIn st e))
    ∧ ((flushEngine st).effects = st.effects)
    ∧ (∃ tr, (flushEngine st).schedTrace = st.schedTrace ++ tr
        ∧ (flushEngine st).queue = firstSched tr)
    ∧ (∀ k e, e ∈ depsOf st k → e ∈ depsOf (flushEngine st) k) := by
  unfold flushEngine
  obtain ⟨hi, he, hf, ⟨tr, hs, hq⟩, hd⟩ :=
    flushLoop st.queue { st with queue := [], flushing := false }
  have hpred : (fun e => throwsIn { st with queue := [], flushing := false } e)
      = fun e => throwsIn st e := rfl
  refine ⟨hi, ?_, hf, ⟨tr, hs, ?_⟩, hd⟩
  · rw [he, hpred]
  · rw [hq]; exact qfold_nil_eq_firstSched tr

/-! ## Write path: what a single proxied write does -/

theorem foldl_queueEffect_proj (l : List Nat) : ∀ s : Engine,
    (l.foldl queueEffect s).queue = qfold s.queue l
    ∧ (l.foldl queueEffect s).schedTrace = s.schedTrace ++ l
    ∧ (l.foldl queueEffect s).heap = s.heap
    ∧ (l.foldl queueEffect s).deps = s.deps
    ∧ (l.foldl queueEffect s).effectDeps = s.effectDeps
    ∧ (l.foldl queueEffect s).invokeTrace = s.invokeTrace := by
  induction l with
  | nil => intro s; exact ⟨rfl, by simp, rfl, rfl, rfl, rfl⟩
  | cons e rest ih =>
    intro s
    obtain ⟨hq, hs, hh, hd, he, hi⟩ := ih (queueEffect s e)
    exact ⟨by simpa [qfold, queueEffect] using hq,
      by simpa [queueEffect] using hs, hh, hd, he, hi⟩

theorem triggerEffects_proj (st : Engine) (t : Nat) (p : String) :
    (triggerEffects st t p).queue = qfold st.queue (depsOf st (t, p))
    ∧ (triggerEffects st t p).schedTrace = st.schedTrace ++ depsOf st (t, p)
    ∧ (triggerEffects st t p).heap = st.heap
    ∧ (triggerEffects st t p).deps = st.deps
    ∧ (triggerEffects st t p).effectDeps = st.effectDeps
    ∧ (triggerEffects st t p).invokeTrace = st.invokeTrace := by
  cases h : alook st.deps (t, p) with
  | none =>
    have ht : triggerEffects st t p = st := by simp [triggerEffects, h]
    rw [ht]
    exact ⟨by simp [depsOf, h, qfold], by simp [depsOf, h], rfl, rfl, rfl, rfl⟩
  | some dep =>
    have ht : triggerEffects st t p = dep.foldl queueEffect st := by
      simp [triggerEffects, h]
    rw [ht]
    simpa [depsOf, h] using foldl_queueEffect_proj dep st

/-- Full behaviour of the `set` trap: the underlying assignment is always
performed; the dependents of `(target, prop)` are handed to the scheduler
exactly when the old value differs from the new one; dep structures and the
invocation trace are never touched (write interception only looks edges up). -/
theorem proxySet_fields (st : Engine) (t : Nat) (p : String) (v : Value) :
    (proxySet st t p v).heap = ains st.heap (t, p) v
    ∧ (proxySet st t p v).deps = st.deps
    ∧ (proxySet st t p v).effectDeps = st.effectDeps
    ∧ (proxySet st t p v).invokeTrace = st.invokeTrace
    ∧ (proxySet st t p v).queue =
        (if (alook st.heap (t, p)).getD Value.undef = v then st.queue
         else qfold st.queue (depsOf st (t, p)))
    ∧ (proxySet st t p v).schedTrace =
        (if (alook st.heap (t, p)).getD Value.undef = v then st.schedTrace
         else st.schedTrace ++ depsOf st (t, p)) := by
  unfold proxySet
  by_cases h : (alook st.heap (t, p)).getD Value.undef ≠ v
  · simp only [if_pos h, if_neg h]
    obtain ⟨hq, hs, hh, hd, he, hi⟩ :=
      triggerEffects_proj { st with heap := ains st.heap (t, p) v } t p
    exact ⟨hh, hd, he, hi, by simpa [depsOf] using hq, by simpa [depsOf] using hs⟩
  · have h' : (alook st.heap (t, p)).getD Value.undef = v := not_not.mp h
    simp only [if_neg h, if_pos h']
    simp

/-! ## Computed cells -/

theorem runReads_comps (rs : List Key) : ∀ st : Engine,
    (runReads st rs).comps = st.comps := by
  induction rs with
  | nil => intro st; rfl
  | cons k rest ih =>
    intro st
    simp only [runReads, List.foldl_cons]
    rw [show (List.foldl (fun s k => (proxyGet s k.1 k.2).1) ((proxyGet st k.1 k.2).1) rest)
        = runReads ((proxyGet st k.1 k.2).1) rest from rfl]
    rw [ih, proxyGet_comps]

/-- Ghost getter-invocation count of a computed cell. -/
def compRuns (st : Engine) (c : Nat) : Nat :=
  ((alook st.comps c).map CompCell.runs).getD 0

/-- Dirty flag of a computed cell (`false` when the cell is unknown). -/
def dirtyOf (st : Engine) (c : Nat) : Bool :=
  ((alook st.comps c).map CompCell.dirty).getD false

theorem trackerBody_comps {st : Engine} {c : Nat} {cell : CompCell}
    (h : alook st.comps c = some cell) :
    alook (trackerBody st c).comps c
      = some { cell with dirty := true, runs := cell.runs + 1 } := by
  unfold trackerBody
  rw [h]
  simp [updCell, bumpRuns, h, alook_ains_self, runReads_comps]

theorem compRecomputeRun_comps {st : Engine} {c : Nat} {cell : CompCell}
    (h : alook st.comps c = some cell) (hd : cell.dirty = true) :
    alook (compRecomputeRun st c).comps c
      = some ({ cell with
          runs := cell.runs + 1,
          cached := some cell.getterVal,
          dirty := false } : CompCell) := by
  unfold compRecomputeRun
  rw [h]
  simp [hd, updCell, bumpRuns, h, alook_ains_self, runReads_comps]

theorem compAccess_not_dirty {st : Engine} {c : Nat} {cell : CompCell}
    (h : alook st.comps c = some cell) (hd : cell.dirty = false) :
    compAccess st c = (st, cell.cached) := by
  unfold compAccess
  rw [h]
  simp [hd, h]

/-- Invoking a registered tracker effect sets the dirty flag and runs the
getter once. -/
theorem effectFnRun_tracker_comps {st : Engine} {e c : Nat} {cell : CompCell}
    (he : alook st.effects e = some (EffBody.tracker c))
    (hc : alook st.comps c = some cell) :
    alook (effectFnRun st e).1.comps c
      = some { cell with dirty := true, runs := cell.runs + 1 } := by
  unfold effectFnRun
  rw [he]
  simpa using
    @trackerBody_comps { st with activeEffect := some e } c cell
      (by simpa using hc)

/-- The registered tracker effect body runs the getter exactly once when the
computed is created. -/
theorem createComputed_comps (st : Engine) (c tid rid : Nat) (reads : List Key)
    (v : Value) :
    alook (createComputed st c tid rid reads v).comps c =
      some { getterReads := reads, getterVal := v, recomputeId := rid,
             dirty := true, cached := none, runs := 1 } := by
  unfold createComputed
  dsimp only
  refine @effectFnRun_tracker_comps _ tid c
    { getterReads := reads, getterVal := v, recomputeId := rid,
      dirty := true, cached := none, runs := 0 } ?_ ?_
  · exact alook_ains_self _ _ _
  · exact alook_ains_self _ _ _

theorem compAccess_runs_le (st : Engine) (c : Nat) :
    compRuns ((compAccess st c).1) c ≤ compRuns st c + 1 := by
  unfold compAccess
  cases h : alook st.comps c with
  | none => simp [compRuns]
  | some cell =>
    cases hd : cell.dirty
    · simp [hd, compRuns, h]
    · simp [hd, compRuns, compRecomputeRun_comps h hd, h]

theorem dirtyOf_compAccess (st : Engine) (c : Nat) :
    dirtyOf ((compAccess st c).1) c = false := by
  unfold compAccess
  cases h : alook st.comps c with
  | none => simp [dirtyOf, h]
  | some cell =>
    cases hd : cell.dirty
    · simp [hd, dirtyOf, h]
    · simp [hd, dirtyOf, compRecomputeRun_comps h hd]

/-! ## Synchronous windows of writes, and whole-engine operations -/

/-- A synchronous sequence of writes through the wrapper. -/
def applyWrites (st : Engine) (ws : List (Nat × String × Value)) : Engine :=
  ws.foldl (fun s w => proxySet s w.1 w.2.1 w.2.2) st

theorem evolves_applyWrites (ws : List (Nat × String × Value)) : ∀ st : Engine,
    Evolves st (applyWrites st ws) := by
  induction ws with
  | nil => intro st; exact evolves_rfl st
  | cons w rest ih =>
    intro st
    exact evolves_trans (evolves_proxySet st w.1 w.2.1 w.2.2)
      (ih (proxySet st w.1 w.2.1 w.2.2))

/-- The public operations of the engine, for whole-run invariants. -/
inductive EngOp where
  | wrapO (o : Nat)
  | getO (t : Nat) (p : String)
  | setO (t : Nat) (p : String) (v : Value)
  | newEffectO (e : Nat) (l : List EAct)
  | newComputedO (c tid rid : Nat) (reads : List Key) (v : Value)
  | accessO (c : Nat)
  | flushO
  | disposeO (e : Nat)
deriving DecidableEq, Repr

def execOp (st : Engine) : EngOp → Engine
  | EngOp.wrapO o => (createProxy st o).1
  | EngOp.getO t p => (proxyGet st t p).1
  | EngOp.setO t p v => proxySet st t p v
  | EngOp.newEffectO e l => createEffect st e l
  | EngOp.newComputedO c tid rid reads v => createComputed st c tid rid reads v
  | EngOp.accessO c => (compAccess st c).1
  | EngOp.flushO => flushEngine st
  | EngOp.disposeO e => cleanupEffect st e

def execOps (st : Engine) (ops : List EngOp) : Engine :=
  ops.foldl execOp st

def isDispose : EngOp → Bool
  | EngOp.disposeO _ => true
  | _ => false

theorem depsLe_execOp (st : Engine) (op : EngOp) (hop : isDispose op = false) :
    ∀ k e, e ∈ depsOf st k → e ∈ depsOf (execOp st op) k := by
  cases op with
  | wrapO o => exact (evolves_createProxy st o).2.2.2.2
  | getO t p => exact (evolves_proxyGet st t p).2.2.2.2
  | setO t p v => exact (evolves_proxySet st t p v).2.2.2.2
  | newEffectO e l =>
    intro k e' h
    exact (evolves_effectFnRun
      { st with effects := ains st.effects e (EffBody.eacts l) } e).2.2.2.2 k e' h
  | newComputedO c tid rid reads v =>
    intro k e' h
    exact (evolves_effectFnRun _ tid).2.2.2.2 k e' h
  | accessO c => exact (evolves_compAccess st c).2.2.2.2
  | flushO => exact (flushEngine_spec st).2.2.2.2
  | disposeO e => simp [isDispose] at hop

theorem depsLe_execOps (ops : List EngOp) : ∀ st : Engine,
    (∀ op ∈ ops, isDispose op = false) →
    ∀ k e, e ∈ depsOf st k → e ∈ depsOf (execOps st ops) k := by
  induction ops with
  | nil => intro st _ k e h; exact h
  | cons op rest ih =>
    intro st hnd k e h
    have h1 := depsLe_execOp st op (hnd op (by simp)) k e h
    exact ih (execOp st op) (fun o ho => hnd o (by simp [ho])) k e h1

/-! ## Concrete states used by scenario theorems and witnesses -/

/-- Base state for the concrete scenarios: object `0` with properties
`a`/`b`/`x`, object `1` with property `y`, and two parent objects `2`/`3`
whose properties `u`/`v` both hold the same nested object `4`. -/
def stObj : Engine :=
  { initEngine with heap :=
      [((0, "a"), Value.num 1), ((0, "b"), Value.num 2), ((0, "x"), Value.num 3),
       ((1, "y"), Value.undef), ((2, "u"), Value.obj 4), ((3, "v"), Value.obj 4)] }

/-- A computed over a getter reading `0.x`, created on `stObj` with tracker
effect id 10 and recompute closure id 11 (no accessor call yet). -/
def compCreated : Engine := createComputed stObj 0 10 11 [(0, "x")] (Value.num 99)

/-- `compCreated` after one accessor call. -/
def compAccessed : Engine := (compAccess compCreated 0).1

/-- The computed cell after the first accessor call: clean, cached, and with
two getter runs (one at creation, one by the accessor). -/
def compCellAfter : CompCell :=
  { getterReads := [(0, "x")], getterVal := Value.num 99, recomputeId := 11,
    dirty := false, cached := some (Value.num 99), runs := 2 }

/-- Effect body for the disposal scenario: reads `0.a` (tracked), writes the
marker `1.y := 5` (so a run is observable on the heap). -/
def effectBodyC3 : List EAct := [EAct.readP 0 "a", EAct.writeP 1 "y" (Value.num 5)]

def afterCreateC3 : Engine := createEffect stObj 7 effectBodyC3
def afterWriteC3 : Engine := proxySet afterCreateC3 0 "a" (Value.num 2)
def afterDisposeC3 : Engine := cleanupEffect afterWriteC3 7
def afterResetC3 : Engine := proxySet afterDisposeC3 1 "y" (Value.num 0)
def afterFlushC3 : Engine := flushEngine afterResetC3

/-- Effect body that reads `0.a`, then calls the computed accessor (a nested
tracked run), then reads `0.b`. -/
def nestedEffectBody : List EAct := [EAct.readP 0 "a", EAct.accessC 0, EAct.readP 0 "b"]

/-- Effect 20 with `nestedEffectBody`, created after the computed of
`compCreated` on `stObj`. -/
def afterNestedRun : Engine := createEffect compCreated 20 nestedEffectBody

/-- Three writes in one synchronous window: `0.a := 10; 0.a := 11; 0.b := 12`. -/
def writesC6 : List (Nat × String × Value) :=
  [(0, "a", Value.num 10), (0, "a", Value.num 11), (0, "b", Value.num 12)]

/-- An op sequence without `dispose`: a write, a flush, a read, an accessor
call. -/
def opsC9 : List EngOp :=
  [EngOp.setO 0 "a" (Value.num 5), EngOp.flushO, EngOp.getO 0 "b", EngOp.accessO 0]

/-! ## Claim theorems -/

/-- Second read reaching the same underlying object returns the same wrapper. -/
theorem proxyGet_obj {st : Engine} {t : Nat} {p : String} {o : Nat}
    (h : alook st.heap (t, p) = some (Value.obj o)) :
    proxyGet st t p = ((createProxy (trackDependency st t p) o).1,
      JsVal.proxyOf (createProxy (trackDependency st t p) o).2) := by
  simp only [proxyGet]
  rw [trackDependency_heap, h]
  rcases hcp : createProxy (trackDependency st t p) o with ⟨s2, pid⟩
  simp [hcp]

/-- C1.  `wrap` is idempotent with referential identity: a second
`createProxy` call on the same object returns the identical proxy and leaves
the state unchanged, and two tracked reads that reach the same underlying
object `o` through different property paths return the identical wrapper. -/
theorem wrap_referential_identity (st : Engine) (o t t' : Nat) (p p' : String)
    (h1 : alook st.heap (t, p) = some (Value.obj o))
    (h2 : alook st.heap (t', p') = some (Value.obj o)) :
    (createProxy (createProxy st o).1 o).2 = (createProxy st o).2
    ∧ (createProxy (createProxy st o).1 o).1 = (createProxy st o).1
    ∧ (proxyGet (proxyGet st t p).1 t' p').2 = (proxyGet st t p).2 := by
  refine ⟨congrArg Prod.snd (createProxy_idem st o),
    congrArg Prod.fst (createProxy_idem st o), ?_⟩
  rw [proxyGet_obj h1]
  have h2' : alook (createProxy (trackDependency st t p) o).1.heap (t', p')
      = some (Value.obj o) := by
    rw [createProxy_heap, trackDependency_heap]; exact h2
  rw [proxyGet_obj h2']
  have hcache : alook (trackDependency (createProxy (trackDependency st t p) o).1
      t' p').proxyCache o = some (createProxy (trackDependency st t p) o).2 := by
    rw [trackDependency_proxyCache]
    exact createProxy_cached (trackDependency st t p) o
  rw [createProxy_of_cached hcache]

/-- Witness for C1 on `stObj`: `2.u` and `3.v` both hold object `4`. -/
theorem wrap_referential_identity_witness :
    (alook stObj.heap (2, "u") = some (Value.obj 4)
      ∧ alook stObj.heap (3, "v") = some (Value.obj 4))
    ∧ ((createProxy (createProxy stObj 4).1 4).2 = (createProxy stObj 4).2
      ∧ (createProxy (createProxy stObj 4).1 4).1 = (createProxy stObj 4).1
      ∧ (proxyGet (proxyGet stObj 2 "u").1 3 "v").2 = (proxyGet stObj 2 "u").2) :=
  ⟨⟨by decide, by decide⟩,
    wrap_referential_identity stObj 4 2 3 "u" "v" (by decide) (by decide)⟩

/-- C2 counterexample.  The claim says `computed(getter)` never invokes the
getter before the first call of the returned accessor, i.e. the getter run
count right after `createComputed` would be `0`.  In the source,
`createComputed` calls `createEffect(() => { dirty = true; getter() })`,
which runs its body immediately: the count is already `1` with no accessor
call ever made. -/
theorem computed_getter_runs_at_creation :
    compRuns compCreated 0 = 1 ∧ ¬ compRuns compCreated 0 = 0 :=
  ⟨by decide, by decide⟩

/-- C2 amended.  `computed(getter)` invokes the getter exactly once during
`createComputed` itself (the creation-time dependency-collection run);
after that, between two consecutive invalidations, any number of accessor
calls invokes the getter at most once: an accessor call adds at most one
getter run, it always leaves the cell clean, and an accessor call on a clean
cell returns the cached value leaving the state unchanged. -/
theorem computed_lazy_amended (st : Engine) (c tid rid : Nat) (reads : List Key)
    (v : Value) :
    compRuns (createComputed st c tid rid reads v) c = 1
    ∧ (∀ s : Engine, ∀ cell : CompCell, alook s.comps c = some cell →
        cell.dirty = false → (compAccess s c).1 = s)
    ∧ (∀ s : Engine, compRuns ((compAccess s c).1) c ≤ compRuns s c + 1)
    ∧ (∀ s : Engine, dirtyOf ((compAccess s c).1) c = false) := by
  refine ⟨by simp [compRuns, createComputed_comps], ?_,
    fun s => compAccess_runs_le s c, fun s => dirtyOf_compAccess s c⟩
  intro s cell hcell hdirty
  rw [compAccess_not_dirty hcell hdirty]

/-- Witness for C2 (amended): after the first accessor call the cell is
clean, and a further accessor call leaves the engine unchanged. -/
theorem computed_lazy_amended_witness :
    (alook compAccessed.comps 0 = some compCellAfter
      ∧ compCellAfter.dirty = false)
    ∧ (compAccess compAccessed 0).1 = compAccessed :=
  ⟨⟨by decide, by decide⟩,
    (computed_lazy_amended stObj 0 10 11 [(0, "x")] (Value.num 99)).2.1
      compAccessed compCellAfter (by decide) (by decide)⟩

/-- C3 evaluated at the failing input.  Effect 7 reads `0.a` and writes the
marker `1.y := 5`; after `0.a := 2` it is pending; `cleanupEffect` removes it
from every dep set (the engine regards it as disposed) but leaves it in the
scheduler queue, and `flush` has no liveness check: the flush still invokes
the disposed body, observable both in the invocation trace and in the marker
write `1.y = 5` it performs again after the marker was reset to `0`. -/
theorem flush_runs_disposed_pending_dependent :
    depsOf afterDisposeC3 (0, "a") = []
    ∧ afterDisposeC3.queue = [7]
    ∧ alook afterResetC3.heap (1, "y") = some (Value.num 0)
    ∧ afterFlushC3.invokeTrace = [7]
    ∧ alook afterFlushC3.heap (1, "y") = some (Value.num 5) :=
  ⟨by decide, by decide, by decide, by decide, by decide⟩

/-- C4 evaluated at the failing input.  Effect 20 reads `0.a`, then calls the
computed accessor (a nested tracked run), then reads `0.b`.  The nested run
restores `activeEffect` to `null` instead of the outer dependent, so the
outer read of `0.b` is recorded against nothing: `(0,b)` has no dependents
and a later write to `0.b` schedules nothing. -/
theorem nested_run_clobbers_outer_tracking :
    depsOf afterNestedRun (0, "a") = [20]
    ∧ depsOf afterNestedRun (0, "b") = []
    ∧ (proxySet afterNestedRun 0 "b" (Value.num 7)).queue = [] :=
  ⟨by decide, by decide, by decide⟩

/-- C5.  A write through the wrapper always performs the underlying
assignment; it hands the dependents registered on `(target, prop)` to the
scheduler exactly when the old value is not strictly equal to the new one
(an equal-value write leaves the scheduler untouched); and a write never
invokes any body (the invocation trace is unchanged), so an equal-value
write cannot increase any effect's run count. -/
theorem write_propagates_iff_changed (st : Engine) (t : Nat) (p : String)
    (v : Value) :
    (proxySet st t p v).heap = ains st.heap (t, p) v
    ∧ (proxySet st t p v).queue =
        (if (alook st.heap (t, p)).getD Value.undef = v then st.queue
         else qfold st.queue (depsOf st (t, p)))
    ∧ (proxySet st t p v).schedTrace =
        (if (alook st.heap (t, p)).getD Value.undef = v then st.schedTrace
         else st.schedTrace ++ depsOf st (t, p))
    ∧ (proxySet st t p v).invokeTrace = st.invokeTrace :=
  ⟨(proxySet_fields st t p v).1, (proxySet_fields st t p v).2.2.2.2.1,
    (proxySet_fields st t p v).2.2.2.2.2, (proxySet_fields st t p v).2.2.2.1⟩

/-- C6.  Any number of writes in one synchronous window starting from an
empty pending set produce a queue equal to the first occurrences of the raw
scheduling-request sequence `tr` those writes generated: duplicate-free (at
most one invocation per distinct dependent), a subsequence of `tr` (ordered
by first scheduling), and the next flush invokes exactly that queue in
order. -/
theorem batch_dedup_first_scheduled_order (st : Engine)
    (ws : List (Nat × String × Value)) (hq : st.queue = []) :
    ∃ tr, (applyWrites st ws).schedTrace = st.schedTrace ++ tr
      ∧ (applyWrites st ws).queue = firstSched tr
      ∧ (firstSched tr).Nodup
      ∧ (firstSched tr).Sublist tr
      ∧ (flushEngine (applyWrites st ws)).invokeTrace
          = (applyWrites st ws).invokeTrace ++ firstSched tr := by
  obtain ⟨hi, he, hf, ⟨tr, hs, hq'⟩, hd⟩ := evolves_applyWrites ws st
  have hqe : (applyWrites st ws).queue = firstSched tr := by
    rw [hq', hq]; exact qfold_nil_eq_firstSched tr
  refine ⟨tr, hs, hqe, nodup_firstSched tr, firstSched_sublist tr, ?_⟩
  rw [(flushEngine_spec (applyWrites st ws)).1, hqe]

/-- Witness for C6: two writes to `0.a` and one to the untracked `0.b` on a
state where effect 20 depends on `0.a` — the raw request sequence is
`[20, 20]` and the flushed batch is `[20]`. -/
theorem batch_dedup_first_scheduled_order_witness :
    afterNestedRun.queue = []
    ∧ (∃ tr, (applyWrites afterNestedRun writesC6).schedTrace
          = afterNestedRun.schedTrace ++ tr
        ∧ (applyWrites afterNestedRun writesC6).queue = firstSched tr
        ∧ (firstSched tr).Nodup
        ∧ (firstSched tr).Sublist tr
        ∧ (flushEngine (applyWrites afterNestedRun writesC6)).invokeTrace
            = (applyWrites afterNestedRun writesC6).invokeTrace ++ firstSched tr) :=
  ⟨by decide, batch_dedup_first_scheduled_order afterNestedRun writesC6 (by decide)⟩

/-- C7.  `flush` snapshots and clears the pending set before invoking
anything: the invocation trace of a flush is exactly the pre-flush queue
(so a dependent scheduled while the flush is draining is never invoked in
that same flush), and the post-flush queue holds exactly the first
occurrences of the scheduling requests made during the drain — the next
batch. -/
theorem flush_snapshot_routes_next_batch (st : Engine) :
    (flushEngine st).invokeTrace = st.invokeTrace ++ st.queue
    ∧ (∃ tr, (flushEngine st).schedTrace = st.schedTrace ++ tr
        ∧ (flushEngine st).queue = firstSched tr) :=
  ⟨(flushEngine_spec st).1, (flushEngine_spec st).2.2.2.1⟩

/-- C8.  Error isolation during flush: every queued dependent is invoked
(one invocation-trace entry each, throwing or not), and the diagnostic
channel receives exactly one report per queued dependent whose body throws —
a throwing body neither stops the batch nor is reported twice. -/
theorem flush_error_isolation (st : Engine) :
    (flushEngine st).errLog = st.errLog ++ st.queue.filter (fun e => throwsIn st e)
    ∧ (flushEngine st).invokeTrace = st.invokeTrace ++ st.queue :=
  ⟨(flushEngine_spec st).2.1, (flushEngine_spec st).1⟩

/-- C9.  Stale-edge accumulation invariant of the source: under any sequence
of engine operations that contains no `dispose`, a dependent recorded in an
edge's set stays there (dep sets are monotonically non-decreasing); write
interception never mutates the dependency structures (it only looks them
up), and read interception only adds. -/
theorem deps_monotone_without_dispose (st : Engine) (ops : List EngOp)
    (hops : ∀ op ∈ ops, isDispose op = false) :
    (∀ k e, e ∈ depsOf st k → e ∈ depsOf (execOps st ops) k)
    ∧ (∀ t p v, (proxySet st t p v).deps = st.deps
        ∧ (proxySet st t p v).effectDeps = st.effectDeps)
    ∧ (∀ t p k e, e ∈ depsOf st k → e ∈ depsOf (proxyGet st t p).1 k) :=
  ⟨depsLe_execOps ops st hops,
    fun t p v => ⟨(proxySet_fields st t p v).2.1, (proxySet_fields st t p v).2.2.1⟩,
    fun t p k e h => (evolves_proxyGet st t p).2.2.2.2 k e h⟩

/-- Witness for C9: effect 20's edge on `0.a` survives a write, a flush, a
read and a computed access. -/
theorem deps_monotone_without_dispose_witness :
    (∀ op ∈ opsC9, isDispose op = false)
    ∧ 20 ∈ depsOf (execOps afterNestedRun opsC9) (0, "a") :=
  ⟨by decide,
    (deps_monotone_without_dispose afterNestedRun opsC9 (by decide)).1
      (0, "a") 20 (by decide)⟩

/-- C10.  An untracked read (no active dependent) leaves the dependency
structures completely unchanged: neither the edge map nor the reverse index
grows. -/
theorem untracked_read_pure (st : Engine) (t : Nat) (p : String)
    (h : st.activeEffect = none) :
    (proxyGet st t p).1.deps = st.deps
    ∧ (proxyGet st t p).1.effectDeps = st.effectDeps := by
  have htd : trackDependency st t p = st := by simp [trackDependency, h]
  simp only [proxyGet, htd]
  cases hv : (alook st.heap (t, p)).getD Value.undef with
  | obj o =>
    rcases hcp : createProxy st o with ⟨s2, pid⟩
    have hd := createProxy_deps st o
    have he := createProxy_effectDeps st o
    rw [hcp] at hd he
    simp only [hv, hcp]
    exact ⟨by simpa using hd, by simpa using he⟩
  | undef => simp [hv]
  | num n => simp [hv]
  | str s => simp [hv]

/-- Witness for C10 on `stObj` (no active effect). -/
theorem untracked_read_pure_witness :
    stObj.activeEffect = none
    ∧ ((proxyGet stObj 0 "a").1.deps = stObj.deps
      ∧ (proxyGet stObj 0 "a").1.effectDeps = stObj.effectDeps) :=
  ⟨by decide, untracked_read_pure stObj 0 "a" (by decide)⟩

end Diamond
